import Mathlib

/-!
Shallow embedding of the spaced-repetition memory planner (`app.py`).

The program keeps a list of learning entries in a JSON file `data.json`.
Each entry holds a date string, up to three study items, and seven review
records (a due-date string plus a completed flag).  Every operation loads
the whole array from disk, transforms it in memory and rewrites the file.

The file system is modelled by `FileState`: the data file can be missing,
present but holding invalid JSON (`malformed`), or holding a well-formed
JSON array (`wellFormed l`, identified with the parsed list).  Python
exceptions that escape a function are modelled by `Option` (`none` = the
call raises).  Dates are modelled by `Date` with proleptic-Gregorian
arithmetic; Python's `datetime` accepts years 1..9999 and raises
`OverflowError` when `date + timedelta` leaves that range, which the
embedding mirrors in `dateAdd`.
-/

namespace RepMem

/-- A review record: `{"dueDate": ..., "completed": ...}`. -/
structure Review where
  dueDate : String
  completed : Bool
deriving Repr, DecidableEq

/-- A learning entry: `{"date": ..., "items": [...], "reviews": [...]}`. -/
structure Entry where
  date : String
  items : List String
  reviews : List Review
deriving Repr, DecidableEq

/-- The state of `data.json` on disk, up to JSON parsing. -/
inductive FileState
  | missing
  | malformed
  | wellFormed (data : List Entry)
deriving Repr, DecidableEq

/-- Python `load_data()`: returns the parsed list and the (possibly updated) file.
A missing file is created holding `[]`; invalid JSON yields `[]` without
rewriting the file. -/
def load_data : FileState → List Entry × FileState
  | .missing => ([], .wellFormed [])
  | .malformed => ([], .malformed)
  | .wellFormed l => (l, .wellFormed l)

/-- Python `save_data(data)`: rewrites the whole file with the serialized array. -/
def save_data (data : List Entry) : FileState :=
  .wellFormed data

/-- Python `delete_entry(date_str)`: filters out entries with the matching date,
saves, and returns a fixed success message. -/
def delete_entry (date_str : String) (fs : FileState) : String × FileState :=
  let data := (load_data fs).1
  let data2 := data.filter (fun entry => entry.date != date_str)
  ("学习记录已删除！", save_data data2)

/-- Python `get_existing_dates()`: all entry dates, sorted newest first. -/
def get_existing_dates (fs : FileState) : List String × FileState :=
  let p := load_data fs
  if p.1 = [] then ([], p.2)
  else ((p.1.map Entry.date).mergeSort (fun a b => b ≤ a), p.2)

/- Date arithmetic (Python datetime) -/

/-- Gregorian leap-year test. -/
def isLeap (y : Nat) : Bool :=
  (y % 4 == 0 && y % 100 != 0) || y % 400 == 0

/-- Number of days in month `m` of year `y`. -/
def daysInMonth (y m : Nat) : Nat :=
  if m = 2 then (if isLeap y then 29 else 28)
  else if m = 4 ∨ m = 6 ∨ m = 9 ∨ m = 11 then 30
  else 31

/-- A calendar date (proleptic Gregorian). -/
structure Date where
  year : Nat
  month : Nat
  day : Nat
deriving Repr, DecidableEq

/-- The dates `datetime(y, m, d)` accepts: years 1..9999, months 1..12,
days 1..`daysInMonth`. -/
def ValidDate (d : Date) : Prop :=
  1 ≤ d.year ∧ d.year ≤ 9999 ∧ 1 ≤ d.month ∧ d.month ≤ 12 ∧
    1 ≤ d.day ∧ d.day ≤ daysInMonth d.year d.month

instance : DecidablePred ValidDate := fun d => by
  unfold ValidDate; infer_instance

/-- The successor date (the next calendar day). -/
def nextDay (d : Date) : Date :=
  if d.day < daysInMonth d.year d.month then ⟨d.year, d.month, d.day + 1⟩
  else if d.month < 12 then ⟨d.year, d.month + 1, 1⟩
  else ⟨d.year + 1, 1, 1⟩

/-- The date `d` advanced by `k` calendar days (ignoring the year-9999 cap). -/
def addDays (d : Date) (k : Nat) : Date :=
  nextDay^[k] d

/-- Python `date + timedelta(days=k)`: Python raises `OverflowError` when the
result leaves the supported range (year beyond 9999), modelled by `none`. -/
def dateAdd (d : Date) (k : Nat) : Option Date :=
  let r := addDays d k
  if r.year ≤ 9999 then some r else none

/-- Zero-pad to two digits (Python `{:02d}`). -/
def pad2 (n : Nat) : String :=
  if n < 10 then "0" ++ toString n else toString n

/-- Zero-pad to four digits (`strftime` `%Y`). -/
def pad4 (n : Nat) : String :=
  if n < 10 then "000" ++ toString n
  else if n < 100 then "00" ++ toString n
  else if n < 1000 then "0" ++ toString n
  else toString n

/-- Python `strftime("%Y-%m-%d")`. -/
def formatISO (d : Date) : String :=
  pad4 d.year ++ "-" ++ pad2 d.month ++ "-" ++ pad2 d.day

/-- The fixed Ebbinghaus offsets: days after initial learning. -/
def intervals : List Nat := [1, 2, 4, 7, 14, 21, 30]

/-- Evaluate the list-comprehension body over the offsets, propagating the
first `OverflowError` (`none`). -/
def reviewsFor (d : Date) : List Nat → Option (List Review)
  | [] => some []
  | k :: ks =>
    match dateAdd d k with
    | none => none
    | some dd =>
      match reviewsFor d ks with
      | none => none
      | some rs => some (⟨formatISO dd, false⟩ :: rs)

/-- Python `calculate_review_dates(date_str)` on the parsed date: one review
record per offset, each `{"dueDate": date+offset, "completed": False}`;
`none` when a date addition overflows and the call raises. -/
def calculate_review_dates (d : Date) : Option (List Review) :=
  reviewsFor d intervals

/-- Python `format_date(year, month, day)`: validates via `datetime(y, m, d)` and
returns `f"{year}-{month:02d}-{day:02d}"`; `none` models the raised
`gr.Error`. -/
def format_date (y m d : Nat) : Option String :=
  if ValidDate ⟨y, m, d⟩ then some (toString y ++ "-" ++ pad2 m ++ "-" ++ pad2 d)
  else none

/- Embedding of add_learning_entry -/

/-- Whitespace characters removed by Python `str.strip()`. -/
def isSpace (c : Char) : Bool :=
  c = ' ' || c = '\t' || c = '\n' || c = '\r' || c = '\x0b' || c = '\x0c'

/-- Python `str.strip()`: drop leading and trailing whitespace. -/
def strip (s : String) : String :=
  ⟨((s.data.dropWhile isSpace).reverse.dropWhile isSpace).reverse⟩

/-- The filter `item and item.strip()`: keep non-empty items whose
stripped form is non-empty. -/
def keepItem (item : String) : Bool :=
  (item != "") && (strip item != "")

/-- The update loop of `add_learning_entry`: replace the items of the
first entry whose date matches, leaving everything else untouched;
`none` when no entry matches. -/
def updateItemsFirst (l : List Entry) (date_str : String) (its : List String) :
    Option (List Entry) :=
  match l with
  | [] => none
  | e :: rest =>
    if e.date = date_str then some ({ e with items := its } :: rest)
    else (updateItemsFirst rest date_str its).map (e :: ·)

/-- Python `add_learning_entry(year, month, day, item1, item2, item3)`: validate
the date, filter blank items, then either update the items of the
existing entry for that date or append a fresh entry with newly computed
review dates; returns the user message and the resulting file. -/
def add_learning_entry (y m d : Nat) (item1 item2 item3 : String)
    (fs : FileState) : String × FileState :=
  if y = 0 ∨ m = 0 ∨ d = 0 then ("请输入有效的日期", fs)
  else
    match format_date y m d with
    | none => ("日期格式错误", fs)
    | some date_str =>
      let items := [item1, item2, item3].filter keepItem
      if items = [] then ("请至少添加一个学习项目", fs)
      else
        let p := load_data fs
        match updateItemsFirst p.1 date_str items with
        | some data2 => ("已更新当日学习项目！", save_data data2)
        | none =>
          match calculate_review_dates ⟨y, m, d⟩ with
          | none => ("添加学习项目出错", p.2)
          | some rs => ("学习项目已添加！", save_data (p.1 ++ [⟨date_str, items, rs⟩]))

/- Embedding of get_reviews_due_today and mark_review_completed -/

/-- One element of the list `get_reviews_due_today` builds. -/
structure ReviewDue where
  entry_date : String
  items : List String
  review_index : Nat
  due_date : String
deriving Repr, DecidableEq

/-- The inner loop of the list comprehension of `get_reviews_due_today`:
the indexed reviews of one entry that are due `today` and not completed. -/
def dueFrom (today : String) (entry : Entry) : List ReviewDue :=
  entry.reviews.enum.filterMap (fun ir =>
    if ir.2.dueDate = today ∧ ir.2.completed = false then
      some ⟨entry.date, entry.items, ir.1, ir.2.dueDate⟩
    else none)

/-- The list comprehension of `get_reviews_due_today`: for each entry, in
order, each indexed review due `today` and not completed. -/
def dueListOf (today : String) (l : List Entry) : List ReviewDue :=
  l.flatMap (dueFrom today)

/-- Python `get_reviews_due_today()`: the due list sorted by entry date, newest
first (`sort(key=..., reverse=True)` is a stable descending sort). -/
def get_reviews_due_today (today : String) (fs : FileState) :
    List ReviewDue × FileState :=
  let p := load_data fs
  if p.1 = [] then ([], p.2)
  else ((dueListOf today p.1).mergeSort (fun a b => b.entry_date ≤ a.entry_date), p.2)

/-- Python `entry["reviews"][i]["completed"] = True`: set the flag of the `i`-th
review; `none` models the `IndexError` when `i` is out of bounds. -/
def setCompletedAt : List Review → Nat → Option (List Review)
  | [], _ => none
  | r :: rest, 0 => some ({ r with completed := true } :: rest)
  | r :: rest, n + 1 => (setCompletedAt rest n).map (r :: ·)

/-- In-place mutation of the entry found by `next(...)`: replace the
first entry with the given date. -/
def replaceFirst : List Entry → String → Entry → List Entry
  | [], _, _ => []
  | e :: rest, date_str, e2 =>
    if e.date = date_str then e2 :: rest
    else e :: replaceFirst rest date_str e2

/-- Python `mark_review_completed(entry_index)` (with the current date
made explicit): when the index selects a review due today, mark it
completed in the matching entry and save; otherwise do nothing.  `none`
models an escaping `IndexError`; the lookup `reviews[entry_index]` is
embedded with `getElem?`, whose `none` branch is unreachable under the
`0 <= entry_index < len(reviews)` guard and then behaves like the guard
failing. -/
def mark_review_completed (today : String) (entry_index : Int)
    (fs : FileState) : Option FileState :=
  let p := load_data fs
  let q := get_reviews_due_today today p.2
  if 0 ≤ entry_index ∧ entry_index < (q.1.length : Int) then
    match q.1[entry_index.toNat]? with
    | none => some q.2
    | some review =>
      match p.1.find? (fun e => e.date == review.entry_date) with
      | none => some q.2
      | some e =>
        match setCompletedAt e.reviews review.review_index with
        | none => none
        | some rs2 =>
          some (save_data (replaceFirst p.1 review.entry_date { e with reviews := rs2 }))
  else some q.2

/-- The pure list transform performed by a successful `add_learning_entry`:
update the items of the existing entry for the date, or append a fresh
entry. -/
def addedList (l : List Entry) (ds : String) (its : List String)
    (rs : List Review) : List Entry :=
  match updateItemsFirst l ds its with
  | some l2 => l2
  | none => l ++ [⟨ds, its, rs⟩]

/-- The date-key uniqueness invariant: no two entries share a date. -/
def DatesNodup (l : List Entry) : Prop :=
  (l.map Entry.date).Nodup

instance : DecidablePred DatesNodup := fun l => by
  unfold DatesNodup; infer_instance

/-- Uniqueness of dates for the list a load of the file would return. -/
def StateNodup (fs : FileState) : Prop :=
  DatesNodup (load_data fs).1

instance : DecidablePred StateNodup := fun fs => by
  unfold StateNodup; infer_instance

/-- A concrete one-entry store (entry added on 2024-02-29) used to
exhibit the state written by `mark_review_completed`. -/
def sampleStore : List Entry :=
  [⟨"2024-02-29", ["a"],
    [⟨"2024-03-01", false⟩, ⟨"2024-03-02", false⟩, ⟨"2024-03-04", false⟩,
     ⟨"2024-03-07", false⟩, ⟨"2024-03-14", false⟩, ⟨"2024-03-21", false⟩,
     ⟨"2024-03-30", false⟩]⟩]

/-- `sampleStore` after its first review is marked completed. -/
def sampleStoreMarked : List Entry :=
  [⟨"2024-02-29", ["a"],
    [⟨"2024-03-01", true⟩, ⟨"2024-03-02", false⟩, ⟨"2024-03-04", false⟩,
     ⟨"2024-03-07", false⟩, ⟨"2024-03-14", false⟩, ⟨"2024-03-21", false⟩,
     ⟨"2024-03-30", false⟩]⟩]

/- Helper lemmas on the file state -/

theorem load_data_idem (fs : FileState) :
    load_data (load_data fs).2 = load_data fs := by
  cases fs <;> rfl

theorem get_reviews_due_today_snd (today : String) (fs : FileState) :
    (get_reviews_due_today today fs).2 = (load_data fs).2 := by
  unfold get_reviews_due_today
  dsimp only
  split <;> rfl

theorem get_existing_dates_snd (fs : FileState) :
    (get_existing_dates fs).2 = (load_data fs).2 := by
  unfold get_existing_dates
  dsimp only
  split <;> rfl

/- Helper lemmas on date arithmetic -/

theorem nextDay_year_le (d : Date) : d.year ≤ (nextDay d).year := by
  unfold nextDay
  split
  · exact Nat.le_refl _
  split
  · exact Nat.le_refl _
  · exact Nat.le_succ _

theorem addDays_succ (d : Date) (k : Nat) :
    addDays d (k + 1) = nextDay (addDays d k) :=
  Function.iterate_succ_apply' nextDay k d

theorem addDays_year_le (d : Date) {k j : Nat} (h : k ≤ j) :
    (addDays d k).year ≤ (addDays d j).year := by
  induction h with
  | refl => exact Nat.le_refl _
  | step h2 ih =>
    refine Nat.le_trans ih ?_
    rw [addDays_succ]
    exact nextDay_year_le _

theorem reviewsFor_eq_map (d : Date) (ks : List Nat)
    (h : ∀ k ∈ ks, (addDays d k).year ≤ 9999) :
    reviewsFor d ks = some (ks.map fun k => ⟨formatISO (addDays d k), false⟩) := by
  induction ks with
  | nil => rfl
  | cons k ks ih =>
    have hk : (addDays d k).year ≤ 9999 := h k (by simp)
    have hrest := ih (fun x hx => h x (by simp [hx]))
    unfold reviewsFor dateAdd
    rw [if_pos hk, hrest]
    rfl

/- Helper lemmas on the list transforms -/

theorem updateItemsFirst_eq_none (l : List Entry) (ds : String) (its : List String) :
    updateItemsFirst l ds its = none ↔ ∀ e ∈ l, e.date ≠ ds := by
  induction l with
  | nil => simp [updateItemsFirst]
  | cons a rest ih =>
    by_cases h : a.date = ds
    · simp [updateItemsFirst, h]
    · simp [updateItemsFirst, h, ih]

theorem updateItemsFirst_map_date (ds : String) (its : List String)
    (l l2 : List Entry) (h : updateItemsFirst l ds its = some l2) :
    l2.map Entry.date = l.map Entry.date := by
  induction l generalizing l2 with
  | nil => simp [updateItemsFirst] at h
  | cons a rest ih =>
    by_cases hd : a.date = ds
    · simp [updateItemsFirst, hd] at h
      subst h
      simp [← hd]
    · simp [updateItemsFirst, hd] at h
      obtain ⟨l3, h3, hl⟩ := h
      subst hl
      simp [ih l3 h3]

theorem updateItemsFirst_mem (ds : String) (its : List String)
    (l l2 : List Entry) (e : Entry) (h : updateItemsFirst l ds its = some l2)
    (he : e ∈ l2) : e ∈ l ∨ e.items = its := by
  induction l generalizing l2 with
  | nil => simp [updateItemsFirst] at h
  | cons a rest ih =>
    by_cases hd : a.date = ds
    · simp only [updateItemsFirst, if_pos hd, Option.some.injEq] at h
      subst h
      rcases List.mem_cons.mp he with he2 | he2
      · right; rw [he2]
      · left; exact List.mem_cons_of_mem a he2
    · simp only [updateItemsFirst, if_neg hd, Option.map_eq_some'] at h
      obtain ⟨l3, h3, hl⟩ := h
      subst hl
      rcases List.mem_cons.mp he with he2 | he2
      · left; rw [he2]; exact List.mem_cons_self a rest
      · rcases ih l3 h3 he2 with h4 | h4
        · left; exact List.mem_cons_of_mem a h4
        · right; exact h4

theorem updateItemsFirst_first (ds : String) (its : List String)
    (l : List Entry) (j : Nat) (hj : j < l.length)
    (hd : (l.get ⟨j, hj⟩).date = ds)
    (hfirst : ∀ j2 (hj2 : j2 < j), (l.get ⟨j2, Nat.lt_trans hj2 hj⟩).date ≠ ds) :
    updateItemsFirst l ds its = some (l.set j { l.get ⟨j, hj⟩ with items := its }) := by
  induction l generalizing j with
  | nil => exact absurd hj (Nat.not_lt_zero j)
  | cons a rest ih =>
    cases j with
    | zero =>
      simp only [List.get] at hd
      simp [updateItemsFirst, hd]
    | succ n =>
      have ha : a.date ≠ ds := hfirst 0 (Nat.succ_pos n)
      have hn : n < rest.length := Nat.lt_of_succ_lt_succ hj
      have hrec := ih n hn hd (fun j2 hj2 => hfirst (j2 + 1) (Nat.succ_lt_succ hj2))
      simp [updateItemsFirst, ha, hrec]

theorem replaceFirst_eq_set (l : List Entry) (ds : String) (e2 : Entry)
    (hnd : DatesNodup l) (j : Nat) (hj : j < l.length)
    (hd : (l.get ⟨j, hj⟩).date = ds) :
    replaceFirst l ds e2 = l.set j e2 := by
  induction l generalizing j with
  | nil => exact absurd hj (Nat.not_lt_zero j)
  | cons a rest ih =>
    have hnd2 : DatesNodup rest := (List.nodup_cons.mp hnd).2
    cases j with
    | zero =>
      simp only [List.get] at hd
      simp [replaceFirst, hd]
    | succ n =>
      have hn : n < rest.length := Nat.lt_of_succ_lt_succ hj
      have hmem : (rest.get ⟨n, hn⟩).date ∈ rest.map Entry.date := by
        exact List.mem_map_of_mem Entry.date (List.get_mem rest n hn)
      have ha : a.date ≠ ds := by
        intro hcontra
        have : a.date ∈ rest.map Entry.date := by
          rw [hcontra, ← hd]
          exact hmem
        exact (List.nodup_cons.mp hnd).1 this
      simp [replaceFirst, ha, ih hnd2 n hn hd]

theorem replaceFirst_map_date (l : List Entry) (ds : String) (e2 : Entry)
    (h : e2.date = ds) :
    (replaceFirst l ds e2).map Entry.date = l.map Entry.date := by
  induction l with
  | nil => rfl
  | cons a rest ih =>
    by_cases ha : a.date = ds
    · simp [replaceFirst, ha, h]
    · simp [replaceFirst, ha, ih]

theorem setCompletedAt_eq (rs : List Review) (i : Nat) (hi : i < rs.length) :
    setCompletedAt rs i
      = some (rs.set i { rs.get ⟨i, hi⟩ with completed := true }) := by
  induction rs generalizing i with
  | nil => exact absurd hi (Nat.not_lt_zero i)
  | cons r rest ih =>
    cases i with
    | zero => rfl
    | succ n =>
      have hn : n < rest.length := Nat.lt_of_succ_lt_succ hi
      simp [setCompletedAt, ih n hn]

theorem setCompletedAt_eq_none (rs : List Review) (i : Nat) (hi : rs.length ≤ i) :
    setCompletedAt rs i = none := by
  induction rs generalizing i with
  | nil => rfl
  | cons r rest ih =>
    cases i with
    | zero => exact absurd hi (Nat.not_succ_le_zero _)
    | succ n =>
      simp [setCompletedAt, ih n (Nat.le_of_succ_le_succ hi)]

theorem find?_date_of_nodup (l : List Entry) (ds : String) (e : Entry)
    (hnd : DatesNodup l) (he : e ∈ l) (hd : e.date = ds) :
    l.find? (fun x => x.date == ds) = some e := by
  induction l with
  | nil => simp at he
  | cons a rest ih =>
    have hnd2 : DatesNodup rest := (List.nodup_cons.mp hnd).2
    by_cases ha : a.date = ds
    · have hea : e = a := by
        rcases List.mem_cons.mp he with he2 | he2
        · exact he2
        · exfalso
          have : a.date ∈ rest.map Entry.date := by
            rw [ha, ← hd]
            exact List.mem_map_of_mem Entry.date he2
          exact (List.nodup_cons.mp hnd).1 this
      subst hea
      simp [List.find?_cons, ha]
    · have hea : e ∈ rest := by
        rcases List.mem_cons.mp he with he2 | he2
        · exact absurd (he2 ▸ hd) ha
        · exact he2
      have hb : (a.date == ds) = false := by simp [ha]
      simp [List.find?_cons, hb]
      exact ih hnd2 hea

/- Helper lemmas on the due list -/

theorem mem_dueFrom (today : String) (e : Entry) (r : ReviewDue) :
    r ∈ dueFrom today e ↔
      ∃ i, ∃ h : i < e.reviews.length,
        (e.reviews.get ⟨i, h⟩).dueDate = today ∧
        (e.reviews.get ⟨i, h⟩).completed = false ∧
        r = ⟨e.date, e.items, i, today⟩ := by
  unfold dueFrom
  rw [List.mem_filterMap]
  constructor
  · rintro ⟨⟨i, rev⟩, hmem, hf⟩
    have hir := List.mem_enum hmem
    by_cases hc : rev.dueDate = today ∧ rev.completed = false
    · rw [if_pos hc] at hf
      refine ⟨i, hir.1, ?_, ?_, ?_⟩
      · rw [List.get_eq_getElem, ← hir.2]; exact hc.1
      · rw [List.get_eq_getElem, ← hir.2]; exact hc.2
      · have hx := (Option.some.injEq _ _).mp hf
        rw [← hx]
        simp [hc.1]
    · rw [if_neg hc] at hf
      exact absurd hf (by simp)
  · rintro ⟨i, hi, hdue, hcomp, hr⟩
    refine ⟨(i, e.reviews.get ⟨i, hi⟩), ?_, ?_⟩
    · rw [List.mem_enum_iff_getElem?]
      simp [List.getElem?_eq_getElem hi]
    · rw [if_pos ⟨hdue, hcomp⟩, hr, hdue]

theorem mem_dueFrom_date (today : String) (e : Entry) (r : ReviewDue)
    (h : r ∈ dueFrom today e) : r.entry_date = e.date := by
  rw [mem_dueFrom] at h
  obtain ⟨i, hi, _, _, hr⟩ := h
  rw [hr]

theorem dueFrom_nodup (today : String) (e : Entry) : (dueFrom today e).Nodup := by
  unfold dueFrom
  apply List.Nodup.filterMap
  · rintro ⟨i, rev⟩ ⟨i2, rev2⟩ r h1 h2
    rw [Option.mem_def] at h1 h2
    by_cases hc : rev.dueDate = today ∧ rev.completed = false
    · rw [if_pos hc] at h1
      by_cases hc2 : rev2.dueDate = today ∧ rev2.completed = false
      · rw [if_pos hc2] at h2
        have hrev : rev = ⟨today, false⟩ := by
          cases rev
          simp at hc ⊢
          exact ⟨hc.1, hc.2⟩
        have hrev2 : rev2 = ⟨today, false⟩ := by
          cases rev2
          simp at hc2 ⊢
          exact ⟨hc2.1, hc2.2⟩
        have hi : i = i2 := by
          have e1 := congrArg ReviewDue.review_index ((Option.some.injEq _ _).mp h1)
          have e2 := congrArg ReviewDue.review_index ((Option.some.injEq _ _).mp h2)
          simp at e1 e2
          rw [e1, e2]
        rw [hi, hrev, hrev2]
      · rw [if_neg hc2] at h2
        exact absurd h2 (by simp)
    · rw [if_neg hc] at h1
      exact absurd h1 (by simp)
  · have hmap : (e.reviews.enum.map Prod.fst).Nodup := by
      rw [List.enum_map_fst]
      exact List.nodup_range _
    exact hmap.of_map

theorem mem_dueListOf (today : String) (l : List Entry) (r : ReviewDue) :
    r ∈ dueListOf today l ↔
      ∃ e ∈ l, ∃ i, ∃ h : i < e.reviews.length,
        (e.reviews.get ⟨i, h⟩).dueDate = today ∧
        (e.reviews.get ⟨i, h⟩).completed = false ∧
        r = ⟨e.date, e.items, i, today⟩ := by
  unfold dueListOf
  rw [List.mem_flatMap]
  constructor
  · rintro ⟨e, hel, hr⟩
    exact ⟨e, hel, (mem_dueFrom today e r).mp hr⟩
  · rintro ⟨e, hel, hrest⟩
    exact ⟨e, hel, (mem_dueFrom today e r).mpr hrest⟩

theorem dueListOf_nodup (today : String) (l : List Entry) (h : DatesNodup l) :
    (dueListOf today l).Nodup := by
  unfold dueListOf
  rw [List.nodup_flatMap]
  refine ⟨fun e _ => dueFrom_nodup today e, ?_⟩
  have hp : l.Pairwise (fun a b => a.date ≠ b.date) := by
    unfold DatesNodup List.Nodup at h
    exact List.pairwise_map.mp h
  refine hp.imp ?_
  intro a b hab r hra hrb
  exact hab ((mem_dueFrom_date today a r hra) ▸ (mem_dueFrom_date today b r hrb))

theorem pairwise_mergeSort_due (l : List ReviewDue) :
    (l.mergeSort (fun a b => b.entry_date ≤ a.entry_date)).Pairwise
      (fun a b => b.entry_date ≤ a.entry_date) := by
  have htrans : ∀ a b c : ReviewDue,
      decide (b.entry_date ≤ a.entry_date) = true →
      decide (c.entry_date ≤ b.entry_date) = true →
      decide (c.entry_date ≤ a.entry_date) = true := by
    intro a b c h1 h2
    exact decide_eq_true (le_trans (of_decide_eq_true h2) (of_decide_eq_true h1))
  have htotal : ∀ a b : ReviewDue,
      (decide (b.entry_date ≤ a.entry_date) || decide (a.entry_date ≤ b.entry_date)) = true := by
    intro a b
    rcases le_total b.entry_date a.entry_date with h | h <;> simp [h]
  have hs := List.sorted_mergeSort htrans htotal l
  exact hs.imp (fun hab => of_decide_eq_true hab)

/- Claim theorems -/

/-- C5 (counterexample): the claim says that no failure beyond file
non-existence is recovered from; but `load_data` on a file holding
invalid JSON is a non-missing failure state and still returns the empty
list normally, leaving the file untouched. -/
theorem C5_counterexample :
    load_data .malformed = ([], .malformed) ∧ FileState.malformed ≠ .missing :=
  ⟨rfl, by decide⟩

/-- C5 (amended): `load_data` recovers from exactly two failure modes: a
missing file is created holding the empty JSON list and `[]` is
returned, and a file with invalid JSON yields `[]` without rewriting the
file; a well-formed file is returned as parsed. -/
theorem C5_amended :
    load_data .missing = ([], .wellFormed []) ∧
    load_data .malformed = ([], .malformed) ∧
    ∀ l, load_data (.wellFormed l) = (l, .wellFormed l) :=
  ⟨rfl, rfl, fun _ => rfl⟩

/-- C10: `delete_entry` removes exactly the entries whose date equals the
given date, returns the same fixed success message in all cases, is
idempotent, and leaves the stored array unchanged when nothing matches. -/
theorem C10_delete_entry (ds : String) (fs : FileState) :
    (delete_entry ds fs).1 = "学习记录已删除！" ∧
    (∀ e ∈ (load_data (delete_entry ds fs).2).1, e.date ≠ ds ∧ e ∈ (load_data fs).1) ∧
    (∀ e ∈ (load_data fs).1, e.date ≠ ds → e ∈ (load_data (delete_entry ds fs).2).1) ∧
    (delete_entry ds (delete_entry ds fs).2).2 = (delete_entry ds fs).2 ∧
    ((∀ e ∈ (load_data fs).1, e.date ≠ ds) →
      (delete_entry ds fs).2 = .wellFormed (load_data fs).1) := by
  refine ⟨rfl, ?_, ?_, ?_, ?_⟩
  · intro e he
    simp only [delete_entry, save_data, load_data] at he
    rw [List.mem_filter] at he
    exact ⟨by simpa using he.2, he.1⟩
  · intro e he hne
    simp only [delete_entry, save_data, load_data]
    rw [List.mem_filter]
    exact ⟨he, by simpa using hne⟩
  · simp only [delete_entry, save_data, load_data]
    rw [List.filter_filter]
    simp
  · intro h
    simp only [delete_entry, save_data]
    rw [List.filter_eq_self.mpr (fun e he => by simpa using h e he)]

/-- C10 witness: deleting a date with no matching entry leaves the array
unchanged. -/
theorem C10_delete_entry_witness :
    (delete_entry "2024-01-01" (.wellFormed [⟨"2024-01-02", ["a"], []⟩])).2
      = .wellFormed [⟨"2024-01-02", ["a"], []⟩] :=
  (C10_delete_entry "2024-01-01" (.wellFormed [⟨"2024-01-02", ["a"], []⟩])).2.2.2.2
    (by decide)

/-- C1 (counterexample): `9999-12-31` is a valid date (and a valid ISO
date string), but the review-date computation overflows Python's
supported date range on the first offset and the call raises instead of
returning seven records. -/
theorem C1_counterexample :
    ValidDate ⟨9999, 12, 31⟩ ∧ calculate_review_dates ⟨9999, 12, 31⟩ = none :=
  ⟨by decide, rfl⟩

/-- C1 (amended): for every valid date whose 30-day successor still lies
within year 9999 (dates up to 9999-12-01), `calculate_review_dates`
returns exactly seven review records whose due dates are the input date
plus 1, 2, 4, 7, 14, 21 and 30 days, in that order, each formatted
`YYYY-MM-DD` by `formatISO` and each not completed. -/
theorem C1_amended (d : Date) (hv : ValidDate d)
    (hcap : (addDays d 30).year ≤ 9999) :
    calculate_review_dates d = some
      [⟨formatISO (addDays d 1), false⟩, ⟨formatISO (addDays d 2), false⟩,
       ⟨formatISO (addDays d 4), false⟩, ⟨formatISO (addDays d 7), false⟩,
       ⟨formatISO (addDays d 14), false⟩, ⟨formatISO (addDays d 21), false⟩,
       ⟨formatISO (addDays d 30), false⟩] := by
  have h : ∀ k ∈ intervals, (addDays d k).year ≤ 9999 := by
    intro k hk
    refine le_trans (addDays_year_le d ?_) hcap
    simp [intervals] at hk
    rcases hk with rfl | rfl | rfl | rfl | rfl | rfl | rfl <;> omega
  unfold calculate_review_dates
  rw [reviewsFor_eq_map d intervals h]
  rfl

/-- C1 witness: the amended theorem applied at 2024-01-31. -/
theorem C1_amended_witness :
    ValidDate ⟨2024, 1, 31⟩ ∧
    calculate_review_dates ⟨2024, 1, 31⟩ = some
      [⟨formatISO (addDays ⟨2024, 1, 31⟩ 1), false⟩,
       ⟨formatISO (addDays ⟨2024, 1, 31⟩ 2), false⟩,
       ⟨formatISO (addDays ⟨2024, 1, 31⟩ 4), false⟩,
       ⟨formatISO (addDays ⟨2024, 1, 31⟩ 7), false⟩,
       ⟨formatISO (addDays ⟨2024, 1, 31⟩ 14), false⟩,
       ⟨formatISO (addDays ⟨2024, 1, 31⟩ 21), false⟩,
       ⟨formatISO (addDays ⟨2024, 1, 31⟩ 30), false⟩] :=
  ⟨by decide, C1_amended ⟨2024, 1, 31⟩ (by decide) (by decide)⟩

theorem load_data_snd_wellFormed (fs : FileState) (h : fs ≠ .malformed) :
    ∃ l0, (load_data fs).2 = .wellFormed l0 := by
  cases fs with
  | missing => exact ⟨[], rfl⟩
  | malformed => exact absurd rfl h
  | wellFormed l => exact ⟨l, rfl⟩

theorem mark_review_completed_cases (today : String) (idx : Int) (fs : FileState) :
    mark_review_completed today idx fs
        = some (get_reviews_due_today today (load_data fs).2).2 ∨
    (∃ l2, mark_review_completed today idx fs = some (save_data l2)) ∨
    mark_review_completed today idx fs = none := by
  unfold mark_review_completed
  dsimp only
  split
  · split
    · left; rfl
    · split
      · left; rfl
      · split
        · right; right; rfl
        · right; left; exact ⟨_, rfl⟩
  · left; rfl

/-- C4: every mutating operation loads the whole array, transforms it in
memory, and rewrites the file with the full updated list: a successful
add (new entry or items update) saves exactly `addedList` of the loaded
list, delete saves exactly the filtered loaded list, and whenever a mark
call returns, the resulting file is a full serialized array. -/
theorem C4_full_rewrite (fs : FileState) :
    (∀ y m d i1 i2 i3 ds rs,
        format_date y m d = some ds →
        calculate_review_dates ⟨y, m, d⟩ = some rs →
        [i1, i2, i3].filter keepItem ≠ [] →
        (add_learning_entry y m d i1 i2 i3 fs).2
          = save_data (addedList (load_data fs).1 ds ([i1, i2, i3].filter keepItem) rs)) ∧
    (∀ ds, (delete_entry ds fs).2
        = save_data ((load_data fs).1.filter (fun e => e.date != ds))) ∧
    (∀ today idx fs2, fs ≠ .malformed →
        mark_review_completed today idx fs = some fs2 →
        ∃ l2, fs2 = save_data l2 ∧ (load_data fs2).1 = l2) := by
  refine ⟨?_, fun ds => rfl, ?_⟩
  · intro y m d i1 i2 i3 ds rs hfmt hcalc hitems
    have hval : ValidDate ⟨y, m, d⟩ := by
      by_contra hnv
      unfold format_date at hfmt
      rw [if_neg hnv] at hfmt
      cases hfmt
    have hy : ¬(y = 0 ∨ m = 0 ∨ d = 0) := by
      have hy1 : 1 ≤ y := hval.1
      have hm1 : 1 ≤ m := hval.2.2.1
      have hd1 : 1 ≤ d := hval.2.2.2.2.1
      rintro (rfl | rfl | rfl) <;> omega
    unfold add_learning_entry
    rw [if_neg hy, hfmt]
    dsimp only
    rw [if_neg hitems]
    cases hup : updateItemsFirst (load_data fs).1 ds ([i1, i2, i3].filter keepItem) with
    | some l2 => simp [addedList, hup]
    | none => simp [addedList, hup, hcalc]
  · intro today idx fs2 hmal hmark
    rcases mark_review_completed_cases today idx fs with hc | ⟨l2, hc⟩ | hc
    · rw [hc] at hmark
      have heq := (Option.some.injEq _ _).mp hmark
      obtain ⟨l0, hl0⟩ := load_data_snd_wellFormed fs hmal
      rw [get_reviews_due_today_snd, load_data_idem, hl0] at heq
      refine ⟨l0, heq.symm, ?_⟩
      rw [← heq]
      rfl
    · rw [hc] at hmark
      have heq := (Option.some.injEq _ _).mp hmark
      refine ⟨l2, heq.symm, ?_⟩
      rw [← heq]
      rfl
    · rw [hc] at hmark
      cases hmark

/-- C4 witness: a mark call on the empty store returns a fully serialized
(empty) array. -/
theorem C4_full_rewrite_witness :
    ∃ l2, FileState.wellFormed ([] : List Entry) = save_data l2 ∧
      (load_data (FileState.wellFormed ([] : List Entry))).1 = l2 :=
  (C4_full_rewrite (.wellFormed [])).2.2 "2024-01-01" 0 (.wellFormed [])
    (by decide) (by decide)

/-- C3: entries stored by `add_learning_entry` hold one to three
non-blank items: with a valid date and all three inputs blank, the call
returns the error message and leaves the file untouched; and any entry
present after the call that was not present before has between one and
three items, each with non-blank stripped content. -/
theorem C3_nonblank_items (y m d : Nat) (i1 i2 i3 : String) (fs : FileState) :
    (ValidDate ⟨y, m, d⟩ → [i1, i2, i3].filter keepItem = [] →
      add_learning_entry y m d i1 i2 i3 fs = ("请至少添加一个学习项目", fs)) ∧
    (∀ e, e ∈ (load_data (add_learning_entry y m d i1 i2 i3 fs).2).1 →
      e ∉ (load_data fs).1 →
      1 ≤ e.items.length ∧ e.items.length ≤ 3 ∧ ∀ s ∈ e.items, strip s ≠ "") := by
  have hprops : [i1, i2, i3].filter keepItem ≠ [] →
      1 ≤ ([i1, i2, i3].filter keepItem).length ∧
      ([i1, i2, i3].filter keepItem).length ≤ 3 ∧
      ∀ s ∈ [i1, i2, i3].filter keepItem, strip s ≠ "" := by
    intro hne
    refine ⟨List.length_pos.mpr hne, List.length_filter_le keepItem [i1, i2, i3], ?_⟩
    intro s hs
    have hk := (List.mem_filter.mp hs).2
    unfold keepItem at hk
    exact bne_iff_ne.mp ((Bool.and_eq_true _ _).mp hk).2
  constructor
  · intro hval hblank
    have hy : ¬(y = 0 ∨ m = 0 ∨ d = 0) := by
      have hy1 : 1 ≤ y := hval.1
      have hm1 : 1 ≤ m := hval.2.2.1
      have hd1 : 1 ≤ d := hval.2.2.2.2.1
      rintro (rfl | rfl | rfl) <;> omega
    unfold add_learning_entry format_date
    rw [if_neg hy, if_pos hval]
    dsimp only
    rw [if_pos hblank]
  · intro e he hnotin
    unfold add_learning_entry at he
    split at he
    · exact absurd he hnotin
    · split at he
      · exact absurd he hnotin
      · dsimp only at he
        split at he
        · exact absurd he hnotin
        · rename_i hblank
          split at he
          · rename_i l2 hup
            rcases updateItemsFirst_mem _ _ _ _ e hup he with hmem | hitems
            · exact absurd hmem hnotin
            · rw [hitems]
              exact hprops hblank
          · rename_i hup
            split at he
            · rw [load_data_idem] at he
              exact absurd he hnotin
            · rcases List.mem_append.mp he with hmem | hmem
              · exact absurd hmem hnotin
              · rw [List.mem_singleton.mp hmem]
                exact hprops hblank

/-- C3 witness: three blank items leave the store untouched with the
error message. -/
theorem C3_nonblank_items_witness :
    add_learning_entry 2024 1 31 "" " " "" (.wellFormed [])
      = ("请至少添加一个学习项目", .wellFormed []) :=
  (C3_nonblank_items 2024 1 31 "" " " "" (.wellFormed [])).1 (by decide) (by decide)

theorem mark_review_completed_form (today : String) (idx : Int) (fs : FileState)
    (fs2 : FileState) (h : mark_review_completed today idx fs = some fs2) :
    fs2 = (load_data fs).2 ∨
    ∃ ds e rs2,
      (load_data fs).1.find? (fun x => x.date == ds) = some e ∧
      fs2 = save_data (replaceFirst (load_data fs).1 ds { e with reviews := rs2 }) := by
  unfold mark_review_completed at h
  dsimp only at h
  split at h
  · split at h
    · have heq := (Option.some.injEq _ _).mp h
      rw [get_reviews_due_today_snd, load_data_idem] at heq
      exact Or.inl heq.symm
    · split at h
      · have heq := (Option.some.injEq _ _).mp h
        rw [get_reviews_due_today_snd, load_data_idem] at heq
        exact Or.inl heq.symm
      · split at h
        · cases h
        · refine Or.inr ⟨_, _, _, ?_, ((Option.some.injEq _ _).mp h).symm⟩
          assumption
  · have heq := (Option.some.injEq _ _).mp h
    rw [get_reviews_due_today_snd, load_data_idem] at heq
    exact Or.inl heq.symm

/-- C2: the date key stays unique: the empty store satisfies the
invariant, every operation preserves it, and when an entry for the
formatted date already exists, `add_learning_entry` keeps the multiset
of dates unchanged (it updates in place and never appends a duplicate). -/
theorem C2_unique_dates :
    StateNodup .missing ∧
    (∀ y m d i1 i2 i3 fs, StateNodup fs →
      StateNodup (add_learning_entry y m d i1 i2 i3 fs).2) ∧
    (∀ ds fs, StateNodup fs → StateNodup (delete_entry ds fs).2) ∧
    (∀ today idx fs fs2, StateNodup fs →
      mark_review_completed today idx fs = some fs2 → StateNodup fs2) ∧
    (∀ y m d i1 i2 i3 fs ds, format_date y m d = some ds →
      (∃ e ∈ (load_data fs).1, e.date = ds) →
      ((load_data (add_learning_entry y m d i1 i2 i3 fs).2).1.map Entry.date)
        = (load_data fs).1.map Entry.date) := by
  refine ⟨by simp [StateNodup, DatesNodup, load_data], ?_, ?_, ?_, ?_⟩
  · intro y m d i1 i2 i3 fs hnd
    unfold add_learning_entry
    by_cases hy : y = 0 ∨ m = 0 ∨ d = 0
    · rw [if_pos hy]; exact hnd
    · rw [if_neg hy]
      cases hfmt : format_date y m d with
      | none => exact hnd
      | some ds =>
        dsimp only
        by_cases hblank : [i1, i2, i3].filter keepItem = []
        · rw [if_pos hblank]; exact hnd
        · rw [if_neg hblank]
          cases hup : updateItemsFirst (load_data fs).1 ds ([i1, i2, i3].filter keepItem) with
          | some l2 =>
            show DatesNodup l2
            unfold DatesNodup
            rw [updateItemsFirst_map_date ds _ _ l2 hup]
            exact hnd
          | none =>
            cases hcalc : calculate_review_dates ⟨y, m, d⟩ with
            | none =>
              show StateNodup (load_data fs).2
              unfold StateNodup
              rw [load_data_idem]
              exact hnd
            | some rs =>
              show DatesNodup ((load_data fs).1 ++ [⟨ds, [i1, i2, i3].filter keepItem, rs⟩])
              unfold DatesNodup
              rw [List.map_append, List.nodup_append]
              refine ⟨hnd, List.nodup_singleton _, ?_⟩
              intro a ha hb
              have hads : a = ds := by simpa using hb
              subst hads
              obtain ⟨e, hel, hed⟩ := List.mem_map.mp ha
              exact (updateItemsFirst_eq_none _ _ _).mp hup e hel hed
  · intro ds fs hnd
    show DatesNodup ((load_data fs).1.filter (fun entry => entry.date != ds))
    unfold DatesNodup
    exact ((List.filter_sublist _).map Entry.date).nodup hnd
  · intro today idx fs fs2 hnd hmark
    rcases mark_review_completed_form today idx fs fs2 hmark with h | ⟨ds, e, rs2, hfind, h⟩
    · rw [h]
      show StateNodup (load_data fs).2
      unfold StateNodup
      rw [load_data_idem]
      exact hnd
    · rw [h]
      show DatesNodup (replaceFirst (load_data fs).1 ds { e with reviews := rs2 })
      unfold DatesNodup
      have hdate : ({ e with reviews := rs2 } : Entry).date = ds := by
        have hp := List.find?_some hfind
        exact eq_of_beq hp
      rw [replaceFirst_map_date _ ds _ hdate]
      exact hnd
  · intro y m d i1 i2 i3 fs ds hfmt hex
    unfold add_learning_entry
    by_cases hy : y = 0 ∨ m = 0 ∨ d = 0
    · rw [if_pos hy]
    · rw [if_neg hy, hfmt]
      dsimp only
      by_cases hblank : [i1, i2, i3].filter keepItem = []
      · rw [if_pos hblank]
      · rw [if_neg hblank]
        cases hup : updateItemsFirst (load_data fs).1 ds ([i1, i2, i3].filter keepItem) with
        | some l2 =>
          exact updateItemsFirst_map_date ds _ _ l2 hup
        | none =>
          obtain ⟨e, hel, hed⟩ := hex
          exact absurd hed ((updateItemsFirst_eq_none _ _ _).mp hup e hel)

/-- C2 witness: delete preserves the uniqueness invariant on a concrete
store. -/
theorem C2_unique_dates_witness :
    StateNodup (delete_entry "2024-01-01"
      (.wellFormed [⟨"2024-01-01", ["a"], []⟩, ⟨"2024-01-02", ["b"], []⟩])).2 :=
  C2_unique_dates.2.2.1 "2024-01-01"
    (.wellFormed [⟨"2024-01-01", ["a"], []⟩, ⟨"2024-01-02", ["b"], []⟩]) (by decide)

/-- C8: when an entry for the formatted date already exists (first match
at index `j`), a successful add replaces exactly that entry's items with
the filtered inputs, keeping its date and reviews and all other entries
unchanged. -/
theorem C8_update_in_place (y m d : Nat) (i1 i2 i3 : String) (fs : FileState)
    (ds : String) (hfmt : format_date y m d = some ds)
    (j : Nat) (hj : j < (load_data fs).1.length)
    (hdate : ((load_data fs).1.get ⟨j, hj⟩).date = ds)
    (hfirst : ∀ j2 (hj2 : j2 < j),
      ((load_data fs).1.get ⟨j2, Nat.lt_trans hj2 hj⟩).date ≠ ds)
    (hitems : [i1, i2, i3].filter keepItem ≠ []) :
    add_learning_entry y m d i1 i2 i3 fs
      = ("已更新当日学习项目！",
         .wellFormed ((load_data fs).1.set j
           { (load_data fs).1.get ⟨j, hj⟩ with
               items := [i1, i2, i3].filter keepItem })) := by
  have hval : ValidDate ⟨y, m, d⟩ := by
    by_contra hnv
    unfold format_date at hfmt
    rw [if_neg hnv] at hfmt
    cases hfmt
  have hy : ¬(y = 0 ∨ m = 0 ∨ d = 0) := by
    have hy1 : 1 ≤ y := hval.1
    have hm1 : 1 ≤ m := hval.2.2.1
    have hd1 : 1 ≤ d := hval.2.2.2.2.1
    rintro (rfl | rfl | rfl) <;> omega
  unfold add_learning_entry
  rw [if_neg hy, hfmt]
  dsimp only
  rw [if_neg hitems, updateItemsFirst_first ds _ _ j hj hdate hfirst]
  rfl

/-- C8 witness: updating the single existing entry replaces its items and
keeps its reviews. -/
theorem C8_update_in_place_witness :
    add_learning_entry 2024 1 31 "new" "" ""
        (.wellFormed [⟨"2024-01-31", ["old"], [⟨"2024-02-01", true⟩]⟩])
      = ("已更新当日学习项目！",
         .wellFormed (([⟨"2024-01-31", ["old"], [⟨"2024-02-01", true⟩]⟩] : List Entry).set 0
           { (([⟨"2024-01-31", ["old"], [⟨"2024-02-01", true⟩]⟩] : List Entry).get
               ⟨0, by decide⟩) with
               items := ["new", "", ""].filter keepItem })) :=
  C8_update_in_place 2024 1 31 "new" "" ""
    (.wellFormed [⟨"2024-01-31", ["old"], [⟨"2024-02-01", true⟩]⟩])
    "2024-01-31" (by decide) 0 (by decide) (by decide)
    (fun j2 hj2 => absurd hj2 (Nat.not_lt_zero j2)) (by decide)

theorem get_reviews_due_today_fst (today : String) (l : List Entry) (hl : l ≠ []) :
    (get_reviews_due_today today (.wellFormed l)).1
      = (dueListOf today l).mergeSort (fun a b => b.entry_date ≤ a.entry_date) := by
  unfold get_reviews_due_today
  dsimp only [load_data]
  rw [if_neg hl]

/-- C7: `get_reviews_due_today` returns exactly the uncompleted reviews
due today: a record is in the result iff some entry has an uncompleted
review with that index due today, carrying the entry's date and items,
the review index and the due date; the result is sorted by entry date
newest first; and on a store with unique dates it has no duplicate
records (one record per entry/review-index pair). -/
theorem C7_reviews_due_today (today : String) (l : List Entry) :
    (∀ r, r ∈ (get_reviews_due_today today (.wellFormed l)).1 ↔
      ∃ e ∈ l, ∃ i, ∃ h : i < e.reviews.length,
        (e.reviews.get ⟨i, h⟩).dueDate = today ∧
        (e.reviews.get ⟨i, h⟩).completed = false ∧
        r = ⟨e.date, e.items, i, today⟩) ∧
    (get_reviews_due_today today (.wellFormed l)).1.Pairwise
      (fun a b => b.entry_date ≤ a.entry_date) ∧
    (DatesNodup l → (get_reviews_due_today today (.wellFormed l)).1.Nodup) := by
  by_cases hl : l = []
  · subst hl
    refine ⟨?_, ?_, fun _ => ?_⟩
    · intro r
      constructor
      · intro hmem
        exact absurd hmem (by simp [get_reviews_due_today, load_data])
      · rintro ⟨e, hel, _⟩
        exact absurd hel (by simp)
    · exact List.Pairwise.nil
    · exact List.nodup_nil
  · rw [get_reviews_due_today_fst today l hl]
    refine ⟨?_, pairwise_mergeSort_due _, fun hnd => ?_⟩
    · intro r
      rw [(List.mergeSort_perm _ _).mem_iff]
      exact mem_dueListOf today l r
    · exact ((List.mergeSort_perm _ _).symm).nodup (dueListOf_nodup today l hnd)

/-- C7 witness: on a concrete one-entry store with unique dates the
result is duplicate-free. -/
theorem C7_reviews_due_today_witness :
    (get_reviews_due_today "2024-03-01"
      (.wellFormed [⟨"2024-02-29", ["a"],
        [⟨"2024-03-01", false⟩, ⟨"2024-03-02", false⟩]⟩])).1.Nodup :=
  (C7_reviews_due_today "2024-03-01"
    [⟨"2024-02-29", ["a"], [⟨"2024-03-01", false⟩, ⟨"2024-03-02", false⟩]⟩]).2.2
    (by decide)

theorem mark_review_completed_eval (today : String) (idx : Int) (fs : FileState) :
    (∀ r, 0 ≤ idx ∧ idx < ((get_reviews_due_today today (load_data fs).2).1.length : Int) →
      (get_reviews_due_today today (load_data fs).2).1[idx.toNat]? = some r →
      mark_review_completed today idx fs =
        match (load_data fs).1.find? (fun e => e.date == r.entry_date) with
        | none => some (get_reviews_due_today today (load_data fs).2).2
        | some e =>
          match setCompletedAt e.reviews r.review_index with
          | none => none
          | some rs2 =>
            some (save_data (replaceFirst (load_data fs).1
              r.entry_date { e with reviews := rs2 })) ) ∧
    (¬ (0 ≤ idx ∧ idx < ((get_reviews_due_today today (load_data fs).2).1.length : Int)) →
      mark_review_completed today idx fs
        = some (get_reviews_due_today today (load_data fs).2).2) := by
  constructor
  · intro r hc hr
    unfold mark_review_completed
    dsimp only
    rw [if_pos hc, hr]
  · intro h
    unfold mark_review_completed
    dsimp only
    rw [if_neg h]

/-- C9: on a well-formed store with unique dates, `mark_review_completed`
with an out-of-range index returns normally and leaves the store
unchanged; with an in-range index it flips exactly the completed flag of
the selected review (entry found by date, review by its recorded index)
and changes nothing else. -/
theorem C9_mark_review_completed (today : String) (idx : Int) (l : List Entry)
    (hnd : DatesNodup l) :
    (¬ (0 ≤ idx ∧ idx < ((get_reviews_due_today today (.wellFormed l)).1.length : Int)) →
      mark_review_completed today idx (.wellFormed l)
        = some (.wellFormed l)) ∧
    (∀ r, 0 ≤ idx →
      (get_reviews_due_today today (.wellFormed l)).1[idx.toNat]? = some r →
      ∃ j e rev,
        l[j]? = some e ∧
        e.date = r.entry_date ∧
        e.reviews[r.review_index]? = some rev ∧
        rev.completed = false ∧
        rev.dueDate = today ∧
        mark_review_completed today idx (.wellFormed l)
          = some (.wellFormed (l.set j
              { e with reviews :=
                  (e.reviews.set r.review_index { rev with completed := true }) }))) := by
  constructor
  · intro hcond
    have heq := (mark_review_completed_eval today idx (.wellFormed l)).2 hcond
    rw [heq, get_reviews_due_today_snd, load_data_idem]
    rfl
  · intro r h0 hr
    have hlt : idx.toNat < (get_reviews_due_today today (.wellFormed l)).1.length := by
      by_contra hcon
      rw [List.getElem?_eq_none (Nat.le_of_not_lt hcon)] at hr
      cases hr
    have hcast : idx < ((get_reviews_due_today today (.wellFormed l)).1.length : Int) := by
      omega
    have hl : l ≠ [] := by
      rintro rfl
      exact absurd hlt (Nat.not_lt_zero _)
    have hperm : (get_reviews_due_today today (.wellFormed l)).1.Perm
        (dueListOf today l) := by
      rw [get_reviews_due_today_fst today l hl]
      exact List.mergeSort_perm _ _
    have hgv : (get_reviews_due_today today (.wellFormed l)).1[idx.toNat] = r := by
      rw [List.getElem?_eq_getElem hlt] at hr
      exact (Option.some.injEq _ _).mp hr
    have hrmem : r ∈ (get_reviews_due_today today (.wellFormed l)).1 :=
      hgv ▸ List.getElem_mem hlt
    have hmem2 : r ∈ dueListOf today l := hperm.mem_iff.mp hrmem
    obtain ⟨e, hel, i, hi, hdue, hcomp, hreq⟩ := (mem_dueListOf today l r).mp hmem2
    obtain ⟨⟨j, hj⟩, hgetj⟩ := List.mem_iff_get.mp hel
    have hrind : r.review_index = i := by rw [hreq]
    have hrdate : r.entry_date = e.date := by rw [hreq]
    refine ⟨j, e, e.reviews.get ⟨i, hi⟩, ?_, hrdate.symm, ?_, hcomp, hdue, ?_⟩
    · rw [List.getElem?_eq_getElem hj]
      exact congrArg some ((List.get_eq_getElem l ⟨j, hj⟩).symm.trans hgetj)
    · rw [hrind, List.getElem?_eq_getElem hi]
      exact congrArg some (List.get_eq_getElem e.reviews ⟨i, hi⟩).symm
    · have heq := (mark_review_completed_eval today idx (.wellFormed l)).1 r
        ⟨h0, hcast⟩ hr
      dsimp only [load_data] at heq
      rw [find?_date_of_nodup l r.entry_date e hnd hel hrdate.symm] at heq
      dsimp only at heq
      rw [hrind, setCompletedAt_eq e.reviews i hi] at heq
      dsimp only at heq
      rw [replaceFirst_eq_set l r.entry_date _ hnd j hj
        (by rw [hgetj]; exact hrdate.symm)] at heq
      rw [heq, hrind]
      rfl

/-- C9 witness: an out-of-range index returns normally and leaves the
store unchanged. -/
theorem C9_mark_review_completed_witness :
    mark_review_completed "2024-03-01" 5 (.wellFormed [])
      = some (.wellFormed []) :=
  (C9_mark_review_completed "2024-03-01" 5 [] (by decide)).1 (by decide)

theorem dueListOf_sampleStore :
    dueListOf "2024-03-01" sampleStore
      = [⟨"2024-02-29", ["a"], 0, "2024-03-01"⟩] := by decide

theorem get_reviews_sampleStore :
    (get_reviews_due_today "2024-03-01" (.wellFormed sampleStore)).1
      = [⟨"2024-02-29", ["a"], 0, "2024-03-01"⟩] := by
  rw [get_reviews_due_today_fst _ _ (by decide), dueListOf_sampleStore]
  exact List.perm_singleton.mp (List.mergeSort_perm _ _)

/-- Marking the first due review on the sample store writes the updated
store back to the file. -/
theorem mark_mutates_concrete :
    mark_review_completed "2024-03-01" 0 (.wellFormed sampleStore)
      = some (.wellFormed sampleStoreMarked) := by
  have hr : (get_reviews_due_today "2024-03-01" (.wellFormed sampleStore)).1[(0 : Int).toNat]?
      = some ⟨"2024-02-29", ["a"], 0, "2024-03-01"⟩ := by
    rw [get_reviews_sampleStore]
    rfl
  have hc : 0 ≤ (0 : Int) ∧ (0 : Int)
      < ((get_reviews_due_today "2024-03-01" (.wellFormed sampleStore)).1.length : Int) := by
    refine ⟨le_refl 0, ?_⟩
    rw [get_reviews_sampleStore]
    decide
  have heq := (mark_review_completed_eval "2024-03-01" 0 (.wellFormed sampleStore)).1
    ⟨"2024-02-29", ["a"], 0, "2024-03-01"⟩ hc hr
  dsimp only [load_data] at heq
  rw [heq]
  decide

/-- C6 (counterexample): completion marking is not pure: marking the
first due review on a concrete store returns a store different from the
input, i.e. the call writes state. -/
theorem C6_counterexample :
    mark_review_completed "2024-03-01" 0 (.wellFormed sampleStore)
      = some (.wellFormed sampleStoreMarked) ∧
    FileState.wellFormed sampleStoreMarked ≠ .wellFormed sampleStore :=
  ⟨mark_mutates_concrete, by decide⟩

/-- C6 (amended): date formatting and interval calculation are pure
functions of their arguments (they are modelled as mathematical
functions); date-existence lookup and due-review filtering leave a
well-formed store unchanged; completion marking, however, mutates the
store when the index selects a due review. -/
theorem C6_amended :
    (∀ l, (get_existing_dates (.wellFormed l)).2 = .wellFormed l) ∧
    (∀ today l, (get_reviews_due_today today (.wellFormed l)).2 = .wellFormed l) ∧
    (∃ today idx fs fs2,
      mark_review_completed today idx fs = some fs2 ∧ fs2 ≠ fs) := by
  refine ⟨?_, ?_, ?_⟩
  · intro l
    rw [get_existing_dates_snd]
    rfl
  · intro today l
    rw [get_reviews_due_today_snd]
    rfl
  · exact ⟨"2024-03-01", 0, .wellFormed sampleStore, .wellFormed sampleStoreMarked,
      mark_mutates_concrete, by decide⟩

end RepMem
